import Mathlib

/-!
Shallow embedding of the CAPTCHA-solving and retry-orchestration core of
`hass_sgcc/data_fetcher.py`.

The embedded functions, each translated from the Python source:
* `get_transparency_location` (with its row scan `scanPixels` / `scanRow` /
  `scanRows` and the positional pairing fold `pairStep`);
* `sliding_track` for `DataFetcher._sliding_track`;
* `loginLoopFrom` / `login` for the captcha retry loop of `DataFetcher._login`;
* `drivenDistance` for the `round(distance * 1.06)` calibration;
* `stripMimePrefix` / `base64_to_PLI` for the regex prefix stripping of
  `base64_to_PLI`.
-/

/-- A 4-channel pixel as `get_transparency_location` reads it (the code
only inspects index 3, the alpha channel; the `assert channel == 4` of the
source is reflected by this type having exactly four channels). -/
structure Pixel where
  b : Nat
  g : Nat
  r : Nat
  a : Nat
deriving DecidableEq

/-- The mutable state of the row-wise transparency scan in
`get_transparency_location`: `first_location`, `last_location`,
`first_transparency`, `last_transparency`. -/
structure ScanState where
  firstLoc : Option (Nat × Nat)
  lastLoc : Option (Nat × Nat)
  firstT : List (Nat × Nat)
  lastT : List (Nat × Nat)
deriving DecidableEq

/-- Initial scan state: both locations `None`, both lists empty. -/
def initScan : ScanState := ⟨none, none, [], []⟩

/-- The body of the inner loop `for x, BGRA in enumerate(rows)` of
`get_transparency_location` for one pixel: a pixel with nonzero alpha
updates `first_location` (and appends to `first_transparency`) when
`first_location` is unset or belongs to a different row, and always
updates `last_location`. -/
def stepPixel (y x : Nat) (px : Pixel) (st : ScanState) : ScanState :=
  if px.a ≠ 0 then
    match st.firstLoc with
    | none =>
      { st with firstLoc := some (x, y), firstT := st.firstT ++ [(x, y)],
                lastLoc := some (x, y) }
    | some fl =>
      if fl.2 ≠ y then
        { st with firstLoc := some (x, y), firstT := st.firstT ++ [(x, y)],
                  lastLoc := some (x, y) }
      else { st with lastLoc := some (x, y) }
  else st

/-- The inner loop `for x, BGRA in enumerate(rows)` of
`get_transparency_location`, processing the pixels of row `y` from
column `x` on. -/
def scanPixels (y : Nat) : Nat → List Pixel → ScanState → ScanState
  | _, [], st => st
  | x, px :: rest, st => scanPixels y (x + 1) rest (stepPixel y x px st)

/-- The trailing `if last_location: last_transparency.append(last_location)`
of each row iteration. -/
def endRow (st : ScanState) : ScanState :=
  match st.lastLoc with
  | some l => { st with lastT := st.lastT ++ [l] }
  | none => st

/-- One iteration of `for y, rows in enumerate(image)`: scan the row, then
append `last_location` to `last_transparency` when it is set. -/
def scanRow (y : Nat) (row : List Pixel) (st : ScanState) : ScanState :=
  endRow (scanPixels y 0 row st)

/-- The outer loop over all rows of the image. -/
def scanRows : Nat → List (List Pixel) → ScanState → ScanState
  | _, [], st => st
  | y, row :: rest, st => scanRows (y + 1) rest (scanRow y row st)

/-- One iteration of the `for first, last in zip(...)` pairing loop of
`get_transparency_location`, updating the running `left` and `right`
candidates (both `None` initially). -/
def pairStep (lr : Option (Nat × Nat) × Option (Nat × Nat))
    (p : (Nat × Nat) × (Nat × Nat)) : Option (Nat × Nat) × Option (Nat × Nat) :=
  let l1 := match lr.1 with | none => p.1 | some l => l
  let r1 := match lr.2 with | none => p.2 | some r => r
  let l2 := if p.1.1 < l1.1 then p.1 else l1
  let r2 := if r1.1 < p.2.1 then p.2 else r1
  (some l2, some r2)

/-- `get_transparency_location` from `data_fetcher.py`.  Returns
`(left, upper, right, lower)`; `none` models the uncaught Python exceptions
on an image with no transparent pixel (`first_transparency[0]` raising
`IndexError`, or `left[0]` raising `TypeError` when the zip was empty). -/
def get_transparency_location (image : List (List Pixel)) :
    Option (Nat × Nat × Nat × Nat) :=
  match (scanRows 0 image initScan).firstT,
      ((scanRows 0 image initScan).firstT.zip
        (scanRows 0 image initScan).lastT).foldl pairStep (none, none) with
  | t :: rest, (some left, some right) =>
    some (left.1, t.2, right.1, (rest.getLastD t).2)
  | _, _ => none

/-- A pointer event emitted through `page.mouse` by
`DataFetcher._sliding_track`. -/
inductive MouseEvent where
  | move (x y : ℚ)
  | down
  | up
deriving DecidableEq

/-- The bounding box returned by `slider.bounding_box()`:
fields `x`, `y`, `width`, `height`. -/
structure BoundingBox where
  x : ℚ
  y : ℚ
  width : ℚ
  height : ℚ
deriving DecidableEq

/-- `DataFetcher._sliding_track`, as the list of pointer events it emits.
`box` models the result of `slider.bounding_box()` (`none` when no box is
available) and `yoffset` models the value drawn by `random.uniform(-2, 4)`.
With a box, the emitted sequence is: move to the box center, mouse down,
one move to `(start_x + distance, start_y + yoffset)`, mouse up.  Without a
box the body is skipped entirely and no event is emitted. -/
def sliding_track (box : Option BoundingBox) (distance : ℚ) (yoffset : ℚ) :
    List MouseEvent :=
  match box with
  | none => []
  | some b =>
    let start_x := b.x + b.width / 2
    let start_y := b.y + b.height / 2
    [MouseEvent.move start_x start_y, MouseEvent.down,
     MouseEvent.move (start_x + distance) (start_y + yoffset), MouseEvent.up]

/-- The outcome of one iteration of the captcha retry loop in
`DataFetcher._login` (loop body, lines 241-269 of `data_fetcher.py`):
* `success`: after the slide, `page.url != LOGIN_URL`, so the body executes
  `return True`;
* `captchaFailed reloadRaises`: `page.url == LOGIN_URL`; the reload click is
  attempted inside `try`, and whether it raises (`reloadRaises`) or not the
  loop moves on to the next iteration;
* `pipelineRaise`: the unguarded part of the body (canvas capture, base64
  decode, distance inference, slide) raises; no handler in `_login` catches
  it, so it propagates out of the loop. -/
inductive StepOutcome where
  | success
  | captchaFailed (reloadRaises : Bool)
  | pipelineRaise
deriving DecidableEq

/-- The retry loop `for retry_times in range(1, RETRY_TIMES_LIMIT + 1)` of
`DataFetcher._login`, starting at iteration index `k` with `fuel`
iterations left.  `oc k` is the outcome of the attempt with index `k`.
Returns the result of `_login` as seen by its caller (`Except.error ()` for
a propagated exception, `Except.ok b` for `return b`) together with the
number of attempts performed. -/
def loginLoopFrom (oc : Nat → StepOutcome) : Nat → Nat → Except Unit Bool × Nat
  | _, 0 => (Except.ok false, 0)
  | k, fuel + 1 =>
    match oc k with
    | .pipelineRaise => (Except.error (), 1)
    | .success => (Except.ok true, 1)
    | .captchaFailed _ =>
      let r := loginLoopFrom oc (k + 1) fuel
      (r.1, r.2 + 1)

/-- The captcha retry phase of `DataFetcher._login` with budget `limit`
(`RETRY_TIMES_LIMIT`): `range(1, limit + 1)` runs the body `limit` times
with `retry_times` starting at 1; falling out of the loop executes
`return False`. -/
def login (oc : Nat → StepOutcome) (limit : Nat) : Except Unit Bool × Nat :=
  loginLoopFrom oc 1 limit

/-- Python `round` (round-half-to-even) on a rational. -/
def pythonRound (q : ℚ) : ℤ :=
  if q - ⌊q⌋ < 1 / 2 then ⌊q⌋
  else if 1 / 2 < q - ⌊q⌋ then ⌊q⌋ + 1
  else if ⌊q⌋ % 2 = 0 then ⌊q⌋ else ⌊q⌋ + 1

/-- The distance handed to `_sliding_track` in `DataFetcher._login`:
`round(distance * 1.06)` where `distance` is the raw model estimate
(1.06 is the fixed calibration factor, per the source comment). -/
def drivenDistance (raw : ℚ) : ℤ :=
  pythonRound (raw * (106 / 100))

/-- The literal characters of the regex `^data:image/.+;base64,` used by
`base64_to_PLI`: the fixed head `data:image/`. -/
def mimeHead : List Char :=
  ['d', 'a', 't', 'a', ':', 'i', 'm', 'a', 'g', 'e', '/']

/-- The literal tail `;base64,` of that regex. -/
def mimeSep : List Char :=
  [';', 'b', 'a', 's', 'e', '6', '4', ',']

/-- Greedy search for the end of the regex match: having consumed
`data:image/`, scan `t` for the last position, at offset at least 1, where
`;base64,` starts, such that everything before it is newline-free (the `.+`
of the regex); return the remainder after that `;base64,`, or `none` if the
regex does not match.  `seen1` records that at least one character has
already been consumed by `.+`. -/
def greedyTail (seen1 : Bool) : List Char → Option (List Char)
  | [] => none
  | c :: rest =>
    if c = '\n' then none
    else
      match greedyTail true rest with
      | some r => some r
      | none =>
        if seen1 ∧ mimeSep.isPrefixOf (c :: rest) then
          some ((c :: rest).drop 8)
        else none

/-- `re.sub("^data:image/.+;base64,", "", s)` from `base64_to_PLI`: when
the anchored regex matches, replace the (greedy) match by the empty string;
otherwise return `s` unchanged. -/
def stripMimePrefix (s : List Char) : List Char :=
  if mimeHead.isPrefixOf s then
    match greedyTail false (s.drop 11) with
    | some r => r
    | none => s
  else s

/-- `base64_to_PLI` from `data_fetcher.py`: strip the MIME prefix with the
regex, then base64-decode and open the image.  The base64 decoding and the
PIL image parsing are external library collaborators, abstracted as
`decode` into an arbitrary result type. -/
def base64_to_PLI (decode : List Char → α) (base64_str : List Char) : α :=
  decode (stripMimePrefix base64_str)

/-- Characters of the standard base64 alphabet (including padding), the
characters a well-formed base64 payload consists of. -/
def isBase64Char (c : Char) : Bool :=
  c.isAlpha || c.isDigit || c = '+' || c = '/' || c = '='

/-- The concrete MIME prefix `data:image/png;base64,` of the canvas
snapshot handed to `base64_to_PLI`. -/
def pngDataPrefix : List Char :=
  mimeHead ++ (['p', 'n', 'g'] ++ mimeSep)

/-- The pixel at `p` (column `p.1`, row `p.2`) of `image` exists and has
nonzero alpha. -/
def transparentAt (image : List (List Pixel)) (p : Nat × Nat) : Prop :=
  ∃ row px, image[p.2]? = some row ∧ row[p.1]? = some px ∧ px.a ≠ 0

/-- An all-zero (opaque, zero-alpha) pixel used in concrete test images. -/
def px0 : Pixel := ⟨0, 0, 0, 0⟩

/-- A pixel with nonzero alpha used in concrete test images. -/
def pxA : Pixel := ⟨0, 0, 0, 9⟩

/-- A 6-by-3 buffer: nonzero-alpha pixels at (1,0), (3,0) and (5,2); the
middle row is fully zero-alpha. -/
def cexImage : List (List Pixel) :=
  [[px0, pxA, px0, pxA, px0, px0],
   [px0, px0, px0, px0, px0, px0],
   [px0, px0, px0, px0, px0, pxA]]

/-- A 1-by-1 buffer whose only pixel has nonzero alpha. -/
def wImage : List (List Pixel) := [[pxA]]

/-- Invariant of the row scan of `get_transparency_location` after all rows
with index below `y` have been processed: every recorded location is a real
transparent pixel of `image`; `first_transparency` is never longer than
`last_transparency`; an empty `first_transparency` means nothing has been
seen at all; the heads of the two lists come from the same (first
transparent) row with the first-seen column left of the last-seen column;
and the rows recorded in `first_transparency` are below `y` and start at
the head row. -/
def ScanInv (image : List (List Pixel)) (y : Nat) (st : ScanState) : Prop :=
  (∀ p ∈ st.firstT, transparentAt image p) ∧
  (∀ q ∈ st.lastT, transparentAt image q) ∧
  (∀ q, st.lastLoc = some q → transparentAt image q) ∧
  st.firstT.length ≤ st.lastT.length ∧
  (st.firstT = [] → st.lastT = [] ∧ st.firstLoc = none ∧ st.lastLoc = none) ∧
  (∀ f, st.firstT.head? = some f → ∃ g, st.lastT.head? = some g ∧ f.1 ≤ g.1) ∧
  (∀ p ∈ st.firstT, p.2 < y) ∧
  (∀ f, st.firstT.head? = some f → ∀ p ∈ st.firstT, f.2 ≤ p.2)

/-! ## Theorems -/

theorem loginLoopFrom_all_failed (oc : Nat → StepOutcome)
    (h : ∀ k, ∃ b, oc k = StepOutcome.captchaFailed b) :
    ∀ n k, loginLoopFrom oc k n = (Except.ok false, n) := by
  intro n
  induction n with
  | zero => intro k; rfl
  | succ n ih =>
    intro k
    obtain ⟨b, hb⟩ := h k
    simp [loginLoopFrom, hb, ih (k + 1)]

/-- C1: with budget `N ≥ 1` and every attempt reporting captcha failure
(the page URL still the login URL after the slide), the retry loop of
`_login` performs exactly `N` attempts and then returns `False` to the
caller; no exception escapes. -/
theorem login_exhausted_returns_false (oc : Nat → StepOutcome) (N : Nat)
    (hN : 1 ≤ N) (h : ∀ k, ∃ b, oc k = StepOutcome.captchaFailed b) :
    login oc N = (Except.ok false, N) :=
  loginLoopFrom_all_failed oc h N 1

/-- Witness for C1 at `N = 3` with every attempt failing. -/
theorem login_exhausted_returns_false_witness :
    login (fun _ => StepOutcome.captchaFailed false) 3 = (Except.ok false, 3) :=
  login_exhausted_returns_false (fun _ => StepOutcome.captchaFailed false) 3
    (by decide) (fun _ => ⟨false, rfl⟩)

theorem loginLoopFrom_first_success (oc : Nat → StepOutcome) :
    ∀ m fuel k, m < fuel →
      (∀ j, j < m → ∃ b, oc (k + j) = StepOutcome.captchaFailed b) →
      oc (k + m) = StepOutcome.success →
      loginLoopFrom oc k fuel = (Except.ok true, m + 1) := by
  intro m
  induction m with
  | zero =>
    intro fuel k hm hf hs
    match fuel, hm with
    | fuel + 1, _ => simp only [Nat.add_zero] at hs; simp [loginLoopFrom, hs]
  | succ m ih =>
    intro fuel k hm hf hs
    match fuel, hm with
    | fuel + 1, hm =>
      obtain ⟨b, hb⟩ := hf 0 (Nat.succ_pos m)
      rw [Nat.add_zero] at hb
      have hf' : ∀ j, j < m → ∃ b, oc (k + 1 + j) = StepOutcome.captchaFailed b := by
        intro j hj
        obtain ⟨b', hb'⟩ := hf (j + 1) (Nat.succ_lt_succ hj)
        refine ⟨b', ?_⟩
        rw [show k + 1 + j = k + (j + 1) by omega]
        exact hb'
      have hs' : oc (k + 1 + m) = StepOutcome.success := by
        rw [show k + 1 + m = k + (m + 1) by omega]
        exact hs
      have hrec := ih fuel (k + 1) (Nat.lt_of_succ_lt_succ hm) hf' hs'
      simp [loginLoopFrom, hb, hrec]

/-- C2: the retry loop returns `True` immediately after the first attempt
whose verification reports the page URL is no longer the login URL
(`m` earlier attempts all reported captcha failure), regardless of the
remaining budget. -/
theorem login_first_success_returns_true (oc : Nat → StepOutcome) (N m : Nat)
    (hm : m < N)
    (hf : ∀ j, j < m → ∃ b, oc (1 + j) = StepOutcome.captchaFailed b)
    (hs : oc (1 + m) = StepOutcome.success) :
    login oc N = (Except.ok true, m + 1) :=
  loginLoopFrom_first_success oc m N 1 hm hf hs

/-- Witness for C2: success on the second attempt with budget 5. -/
theorem login_first_success_returns_true_witness :
    login (fun k => if k = 2 then StepOutcome.success
      else StepOutcome.captchaFailed true) 5 = (Except.ok true, 2) :=
  login_first_success_returns_true _ 5 1 (by decide)
    (fun j hj => ⟨true, by interval_cases j <;> rfl⟩) rfl

/-- Counterexample for C4: with the captcha pipeline raising (a decode or
inference error) on the very first attempt and budget 3, `_login` performs
exactly one attempt and the exception propagates out of the routine — the
loop does not proceed to the next attempt and no boolean is returned. -/
theorem login_pipeline_error_cex :
    login (fun _ => StepOutcome.pipelineRaise) 3 = (Except.error (), 1) ∧
    ∀ b : Bool, (login (fun _ => StepOutcome.pipelineRaise) 3).1 ≠ Except.ok b := by
  refine ⟨rfl, ?_⟩
  intro b h
  exact Except.noConfusion h

theorem loginLoopFrom_pipeline_raise (oc : Nat → StepOutcome) :
    ∀ m fuel k, m < fuel →
      (∀ j, j < m → ∃ b, oc (k + j) = StepOutcome.captchaFailed b) →
      oc (k + m) = StepOutcome.pipelineRaise →
      loginLoopFrom oc k fuel = (Except.error (), m + 1) := by
  intro m
  induction m with
  | zero =>
    intro fuel k hm hf hs
    match fuel, hm with
    | fuel + 1, _ => simp only [Nat.add_zero] at hs; simp [loginLoopFrom, hs]
  | succ m ih =>
    intro fuel k hm hf hs
    match fuel, hm with
    | fuel + 1, hm =>
      obtain ⟨b, hb⟩ := hf 0 (Nat.succ_pos m)
      rw [Nat.add_zero] at hb
      have hf' : ∀ j, j < m → ∃ b, oc (k + 1 + j) = StepOutcome.captchaFailed b := by
        intro j hj
        obtain ⟨b', hb'⟩ := hf (j + 1) (Nat.succ_lt_succ hj)
        refine ⟨b', ?_⟩
        rw [show k + 1 + j = k + (j + 1) by omega]
        exact hb'
      have hs' : oc (k + 1 + m) = StepOutcome.pipelineRaise := by
        rw [show k + 1 + m = k + (m + 1) by omega]
        exact hs
      have hrec := ih fuel (k + 1) (Nat.lt_of_succ_lt_succ hm) hf' hs'
      simp [loginLoopFrom, hb, hrec]

/-- C4 (amended): an exception from the decode/inference part of attempt
`m + 1` is not caught by the loop: the loop stops right there (after
`m + 1` attempts) and the exception propagates out of `_login` instead of
counting as one failed attempt among others. -/
theorem login_pipeline_error_propagates (oc : Nat → StepOutcome) (N m : Nat)
    (hm : m < N)
    (hf : ∀ j, j < m → ∃ b, oc (1 + j) = StepOutcome.captchaFailed b)
    (hp : oc (1 + m) = StepOutcome.pipelineRaise) :
    login oc N = (Except.error (), m + 1) :=
  loginLoopFrom_pipeline_raise oc m N 1 hm hf hp

/-- Witness for the amended C4: pipeline failure on the second attempt. -/
theorem login_pipeline_error_propagates_witness :
    login (fun k => if k = 2 then StepOutcome.pipelineRaise
      else StepOutcome.captchaFailed false) 4 = (Except.error (), 2) :=
  login_pipeline_error_propagates _ 4 1 (by decide)
    (fun j hj => ⟨false, by interval_cases j <;> rfl⟩) rfl

/-- C6: when the slider handle box is available, the emitted pointer-event
sequence is exactly: move to the box center, mouse down, one intermediate
move to `(start_x + distance, start_y + yoffset)`, mouse up — for any
jitter `yoffset` in the sampler range `[-2, 4]` of `random.uniform(-2, 4)`. -/
theorem sliding_track_sequence (b : BoundingBox) (distance yoffset : ℚ)
    (h1 : -2 ≤ yoffset) (h2 : yoffset ≤ 4) :
    sliding_track (some b) distance yoffset =
      [MouseEvent.move (b.x + b.width / 2) (b.y + b.height / 2),
       MouseEvent.down,
       MouseEvent.move (b.x + b.width / 2 + distance) (b.y + b.height / 2 + yoffset),
       MouseEvent.up] := rfl

/-- Witness for C6 at a concrete box, distance and jitter. -/
theorem sliding_track_sequence_witness :
    sliding_track (some ⟨10, 20, 4, 6⟩) 127 1 =
      [MouseEvent.move 12 23, MouseEvent.down, MouseEvent.move 139 24,
       MouseEvent.up] := by
  have h := sliding_track_sequence ⟨10, 20, 4, 6⟩ 127 1 (by norm_num) (by norm_num)
  rw [h]
  norm_num

/-- C10: when `slider.bounding_box()` returns no box, `_sliding_track`
emits no pointer event at all and returns normally. -/
theorem sliding_track_no_box (distance yoffset : ℚ) :
    sliding_track none distance yoffset = [] := rfl

/-- C8: the raw estimate is multiplied by the fixed calibration factor
1.06 (raw 120 giving 127.2) and rounded to the nearest integer, so the
distance driven is `round(raw * 1.06)`; for raw 120 it is exactly 127. -/
theorem drivenDistance_120 :
    (120 : ℚ) * (106 / 100) = 1272 / 10 ∧
    drivenDistance 120 = 127 ∧
    ∀ raw : ℚ, drivenDistance raw = pythonRound (raw * (106 / 100)) := by
  refine ⟨by norm_num, ?_, fun _ => rfl⟩
  have h1 : (120 * (106 / 100) : ℚ) = 636 / 5 := by norm_num
  have h2 : ⌊(636 / 5 : ℚ)⌋ = 127 := by
    have h3 : ((636 : ℤ) : ℚ) / ((5 : ℕ) : ℚ) = (636 / 5 : ℚ) := by norm_num
    rw [← h3, Rat.floor_intCast_div_natCast]
    decide
  unfold drivenDistance pythonRound
  rw [h1, h2]
  norm_num

theorem greedyTail_eq_none (l : List Char) (hl : ∀ c ∈ l, c ≠ '\n' ∧ c ≠ ';') :
    ∀ b, greedyTail b l = none := by
  induction l with
  | nil => intro b; rfl
  | cons c rest ih =>
    intro b
    obtain ⟨hn, hs⟩ := hl c (List.mem_cons_self c rest)
    have hrest : ∀ x ∈ rest, x ≠ '\n' ∧ x ≠ ';' :=
      fun x hx => hl x (List.mem_cons_of_mem _ hx)
    have hpre : mimeSep.isPrefixOf (c :: rest) = false := by
      simp [mimeSep, List.isPrefixOf]
      intro h
      exact absurd h.symm hs
    simp [greedyTail, hn, ih hrest, hpre]

theorem base64Char_props (c : Char) (h : isBase64Char c = true) :
    c ≠ '\n' ∧ c ≠ ';' ∧ c ≠ ':' := by
  refine ⟨?_, ?_, ?_⟩ <;> (intro he; subst he; revert h; decide)

theorem greedyTail_pngSep (X : List Char) (hX : ∀ c ∈ X, isBase64Char c = true) :
    greedyTail false (['p', 'n', 'g'] ++ (mimeSep ++ X)) = some X := by
  have hXnone : ∀ b, greedyTail b X = none :=
    greedyTail_eq_none X (fun c hc => ⟨(base64Char_props c (hX c hc)).1,
      (base64Char_props c (hX c hc)).2.1⟩)
  have htail : ∀ x ∈ (['b', 'a', 's', 'e', '6', '4', ','] ++ X), x ≠ '\n' ∧ x ≠ ';' := by
    intro x hx
    rcases List.mem_append.1 hx with h | h
    · fin_cases h <;> decide
    · exact ⟨(base64Char_props x (hX x h)).1, (base64Char_props x (hX x h)).2.1⟩
  have h1 : ∀ b, greedyTail b (['b', 'a', 's', 'e', '6', '4', ','] ++ X) = none :=
    greedyTail_eq_none _ htail
  simp [greedyTail, mimeSep, h1, hXnone, List.isPrefixOf]

theorem stripMimePrefix_prefixed (X : List Char)
    (hX : ∀ c ∈ X, isBase64Char c = true) :
    stripMimePrefix (pngDataPrefix ++ X) = X := by
  have heq : pngDataPrefix ++ X = mimeHead ++ (['p', 'n', 'g'] ++ (mimeSep ++ X)) := by
    simp [pngDataPrefix, List.append_assoc]
  rw [heq]
  unfold stripMimePrefix
  have hpre : mimeHead.isPrefixOf (mimeHead ++ (['p', 'n', 'g'] ++ (mimeSep ++ X))) = true := by
    rw [List.isPrefixOf_iff_prefix]
    exact List.prefix_append _ _
  rw [if_pos hpre]
  have hdrop : (mimeHead ++ (['p', 'n', 'g'] ++ (mimeSep ++ X))).drop 11 =
      ['p', 'n', 'g'] ++ (mimeSep ++ X) := by
    rw [show (11 : Nat) = mimeHead.length from rfl, List.drop_left]
  rw [hdrop, greedyTail_pngSep X hX]

theorem stripMimePrefix_bare (X : List Char)
    (hX : ∀ c ∈ X, isBase64Char c = true) :
    stripMimePrefix X = X := by
  unfold stripMimePrefix
  cases h : mimeHead.isPrefixOf X with
  | false => simp
  | true =>
    exfalso
    have hcolon : ':' ∈ X :=
      (List.isPrefixOf_iff_prefix.1 h).subset (by decide)
    have := hX ':' hcolon
    simp [isBase64Char] at this

/-- C7: decoding the MIME-prefixed payload `data:image/png;base64,X` and
decoding the bare base64 payload `X` give bit-identical results: the regex
strips exactly the prefix from the former and leaves the latter unchanged,
and the rest of `base64_to_PLI` only sees the stripped string. -/
theorem base64_to_PLI_prefix_agnostic {α : Type} (decode : List Char → α)
    (X : List Char) (hX : ∀ c ∈ X, isBase64Char c = true) :
    base64_to_PLI decode (pngDataPrefix ++ X) = base64_to_PLI decode X := by
  unfold base64_to_PLI
  rw [stripMimePrefix_prefixed X hX, stripMimePrefix_bare X hX]

/-- Witness for C7 on the payload `Qb+/=` with `decode` the identity. -/
theorem base64_to_PLI_prefix_agnostic_witness :
    (∀ c ∈ ['Q', 'b', '+', '/', '='], isBase64Char c = true) ∧
    base64_to_PLI (fun l => l) (pngDataPrefix ++ ['Q', 'b', '+', '/', '=']) =
      base64_to_PLI (fun l => l) ['Q', 'b', '+', '/', '='] :=
  ⟨by decide, base64_to_PLI_prefix_agnostic (fun l => l) _ (by decide)⟩
theorem head?_append_some {α : Type} {l l' : List α} {a : α}
    (h : l.head? = some a) : (l ++ l').head? = some a := by
  cases l with
  | nil => simp at h
  | cons x t => simpa using h

theorem stepPixel_zero_alpha (y x : Nat) (px : Pixel) (st : ScanState)
    (ha : px.a = 0) : stepPixel y x px st = st := by
  unfold stepPixel
  simp [ha]

theorem stepPixel_lastT (y x : Nat) (px : Pixel) (st : ScanState) :
    (stepPixel y x px st).lastT = st.lastT := by
  unfold stepPixel
  split
  · split
    · rfl
    · split
      · rfl
      · rfl
  · rfl

theorem stepPixel_out (y x : Nat) (px : Pixel) (st : ScanState) :
    ((stepPixel y x px st).firstT = st.firstT ∧
      (stepPixel y x px st).firstLoc = st.firstLoc) ∨
    (px.a ≠ 0 ∧
      (stepPixel y x px st).firstT = st.firstT ++ [(x, y)] ∧
      (stepPixel y x px st).firstLoc = some (x, y) ∧
      (stepPixel y x px st).lastLoc = some (x, y)) := by
  unfold stepPixel
  split
  · rename_i ha
    split
    · right; exact ⟨ha, rfl, rfl, rfl⟩
    · split
      · right; exact ⟨ha, rfl, rfl, rfl⟩
      · left; exact ⟨rfl, rfl⟩
  · left; exact ⟨rfl, rfl⟩

theorem stepPixel_lastLoc (y x : Nat) (px : Pixel) (st : ScanState) :
    (stepPixel y x px st).lastLoc = st.lastLoc ∨
    (px.a ≠ 0 ∧ (stepPixel y x px st).lastLoc = some (x, y)) := by
  unfold stepPixel
  split
  · rename_i ha
    split
    · right; exact ⟨ha, rfl⟩
    · split
      · right; exact ⟨ha, rfl⟩
      · right; exact ⟨ha, rfl⟩
  · left; rfl

theorem stepPixel_noapp (y x : Nat) (px : Pixel) (st : ScanState) (fl : Nat × Nat)
    (hfl : st.firstLoc = some fl) (hy : fl.2 = y) :
    (stepPixel y x px st).firstT = st.firstT ∧
    (stepPixel y x px st).firstLoc = st.firstLoc := by
  unfold stepPixel
  split
  · split
    · rename_i heq
      rw [hfl] at heq
      exact absurd heq (by simp)
    · rename_i fl1 heq
      rw [hfl] at heq
      injection heq with h2
      subst h2
      split
      · rename_i hne
        exact absurd hy hne
      · rw [hfl]
        exact ⟨rfl, rfl⟩
  · exact ⟨rfl, rfl⟩

theorem stepPixel_append (y x : Nat) (px : Pixel) (st : ScanState)
    (ha : px.a ≠ 0)
    (hfl : st.firstLoc = none ∨ ∃ fl, st.firstLoc = some fl ∧ fl.2 ≠ y) :
    stepPixel y x px st =
      ⟨some (x, y), some (x, y), st.firstT ++ [(x, y)], st.lastT⟩ := by
  unfold stepPixel
  rw [if_pos ha]
  split
  · rfl
  · rename_i fl1 heq
    rcases hfl with h | ⟨fl, h, hy⟩
    · rw [h] at heq
      exact absurd heq (by simp)
    · rw [h] at heq
      injection heq with h2
      subst h2
      rw [if_pos hy]

theorem scanPixels_lastT (y : Nat) (l : List Pixel) :
    ∀ x st, (scanPixels y x l st).lastT = st.lastT := by
  induction l with
  | nil => intro x st; rfl
  | cons px rest ih =>
    intro x st
    simp only [scanPixels]
    rw [ih, stepPixel_lastT]

theorem scanPixels_noapp (y : Nat) (l : List Pixel) :
    ∀ x st fl, st.firstLoc = some fl → fl.2 = y →
      (scanPixels y x l st).firstT = st.firstT ∧
      (scanPixels y x l st).firstLoc = st.firstLoc := by
  induction l with
  | nil => intro x st fl h1 h2; exact ⟨rfl, rfl⟩
  | cons px rest ih =>
    intro x st fl h1 h2
    obtain ⟨e1, e2⟩ := stepPixel_noapp y x px st fl h1 h2
    obtain ⟨f1, f2⟩ := ih (x + 1) (stepPixel y x px st) fl (by rw [e2, h1]) h2
    constructor
    · simp only [scanPixels]
      rw [f1, e1]
    · simp only [scanPixels]
      rw [f2, e2]

theorem scanPixels_lastLocD (y : Nat) (l : List Pixel) :
    ∀ x st, (scanPixels y x l st).lastLoc = st.lastLoc ∨
      ∃ j px, l[j]? = some px ∧ px.a ≠ 0 ∧
        (scanPixels y x l st).lastLoc = some (x + j, y) := by
  induction l with
  | nil => intro x st; left; rfl
  | cons px rest ih =>
    intro x st
    simp only [scanPixels]
    rcases ih (x + 1) (stepPixel y x px st) with h | ⟨j, px', hj, ha', h⟩
    · rcases stepPixel_lastLoc y x px st with h2 | ⟨ha, h2⟩
      · left
        rw [h, h2]
      · right
        refine ⟨0, px, List.getElem?_cons_zero, ha, ?_⟩
        rw [h, h2, Nat.add_zero]
    · right
      refine ⟨j + 1, px', by simpa using hj, ha', ?_⟩
      rw [h, show x + 1 + j = x + (j + 1) from by omega]

theorem scanPixels_lastLoc_isSome (y : Nat) (l : List Pixel) (x : Nat)
    (st : ScanState) (h : st.lastLoc.isSome = true) :
    (scanPixels y x l st).lastLoc.isSome = true := by
  rcases scanPixels_lastLocD y l x st with h2 | ⟨j, px, _, _, h2⟩
  · rw [h2]; exact h
  · rw [h2]; rfl

theorem scanPixels_struct (y : Nat) (l : List Pixel) :
    ∀ x st,
      ((scanPixels y x l st).firstT = st.firstT ∧
        (scanPixels y x l st).firstLoc = st.firstLoc) ∨
      (∃ j px, l[j]? = some px ∧ px.a ≠ 0 ∧
        (scanPixels y x l st).firstT = st.firstT ++ [(x + j, y)] ∧
        ((scanPixels y x l st).lastLoc).isSome = true) := by
  induction l with
  | nil => intro x st; left; exact ⟨rfl, rfl⟩
  | cons px rest ih =>
    intro x st
    simp only [scanPixels]
    rcases stepPixel_out y x px st with ⟨e1, e2⟩ | ⟨ha, e1, e2, e3⟩
    · rcases ih (x + 1) (stepPixel y x px st) with ⟨f1, f2⟩ | ⟨j, px', hj, ha', f1, f2⟩
      · left
        exact ⟨by rw [f1, e1], by rw [f2, e2]⟩
      · right
        refine ⟨j + 1, px', by simpa using hj, ha', ?_, f2⟩
        rw [f1, e1, show x + 1 + j = x + (j + 1) from by omega]
    · obtain ⟨f1, f2⟩ := scanPixels_noapp y rest (x + 1) (stepPixel y x px st) (x, y) e2 rfl
      right
      refine ⟨0, px, List.getElem?_cons_zero, ha, ?_, ?_⟩
      · rw [f1, e1, Nat.add_zero]
      · exact scanPixels_lastLoc_isSome y rest (x + 1) _ (by rw [e3]; rfl)

theorem scanPixels_ne (y : Nat) (l : List Pixel) (x : Nat) (st : ScanState)
    (h : st.firstT ≠ []) : (scanPixels y x l st).firstT ≠ [] := by
  rcases scanPixels_struct y l x st with ⟨e1, _⟩ | ⟨j, px, _, _, e1, _⟩
  · rw [e1]; exact h
  · rw [e1]; simp

theorem scanPixels_head (y : Nat) (l : List Pixel) (x : Nat) (st : ScanState)
    (f : Nat × Nat) (hf : st.firstT.head? = some f) :
    (scanPixels y x l st).firstT.head? = some f := by
  rcases scanPixels_struct y l x st with ⟨e1, _⟩ | ⟨j, px, _, _, e1, _⟩
  · rw [e1]; exact hf
  · rw [e1]; exact head?_append_some hf

theorem scanPixels_lastLoc_ge (y : Nat) (l : List Pixel) :
    ∀ x st l0 v, st.lastLoc = some l0 → v ≤ l0.1 → v ≤ x →
      ∃ l', (scanPixels y x l st).lastLoc = some l' ∧ v ≤ l'.1 := by
  induction l with
  | nil => intro x st l0 v h hv hx; exact ⟨l0, h, hv⟩
  | cons px rest ih =>
    intro x st l0 v h hv hx
    simp only [scanPixels]
    rcases stepPixel_lastLoc y x px st with h2 | ⟨ha, h2⟩
    · exact ih (x + 1) _ l0 v (by rw [h2]; exact h) hv (Nat.le_succ_of_le hx)
    · exact ih (x + 1) _ (x, y) v h2 hx (Nat.le_succ_of_le hx)

theorem scanPixels_empty (y : Nat) (l : List Pixel) :
    ∀ x st, st.firstT = [] → st.firstLoc = none → st.lastLoc = none →
      ((scanPixels y x l st).firstT = [] ∧
        (scanPixels y x l st).firstLoc = none ∧
        (scanPixels y x l st).lastLoc = none) ∨
      (∃ f l', (scanPixels y x l st).firstT.head? = some f ∧
        (scanPixels y x l st).lastLoc = some l' ∧ f.1 ≤ l'.1) := by
  induction l with
  | nil => intro x st h1 h2 h3; left; exact ⟨h1, h2, h3⟩
  | cons px rest ih =>
    intro x st h1 h2 h3
    simp only [scanPixels]
    by_cases ha : px.a = 0
    · rw [stepPixel_zero_alpha y x px st ha]
      exact ih (x + 1) st h1 h2 h3
    · have happ := stepPixel_append y x px st ha (Or.inl h2)
      right
      have hh : (stepPixel y x px st).firstT.head? = some (x, y) := by
        rw [happ, h1]
        rfl
      have hhead := scanPixels_head y rest (x + 1) _ (x, y) hh
      have hlast : (stepPixel y x px st).lastLoc = some (x, y) := by rw [happ]
      obtain ⟨l', hl', hge⟩ := scanPixels_lastLoc_ge y rest (x + 1) _ (x, y) x hlast
        (Nat.le_refl x) (Nat.le_succ x)
      exact ⟨(x, y), l', hhead, hl', hge⟩

theorem scanPixels_finds (y : Nat) (l : List Pixel) :
    ∀ x st, (∃ px ∈ l, px.a ≠ 0) →
      (st.firstLoc.isSome = true → st.firstT ≠ []) →
      (scanPixels y x l st).firstT ≠ [] := by
  induction l with
  | nil =>
    intro x st himem hpre
    obtain ⟨px, hmem, _⟩ := himem
    exact absurd hmem (List.not_mem_nil px)
  | cons px rest ih =>
    intro x st himem hpre
    simp only [scanPixels]
    by_cases ha : px.a = 0
    · rw [stepPixel_zero_alpha y x px st ha]
      obtain ⟨px', hmem, ha'⟩ := himem
      rcases List.mem_cons.1 hmem with rfl | h
      · exact absurd ha ha'
      · exact ih (x + 1) st ⟨px', h, ha'⟩ hpre
    · cases hfl : st.firstLoc with
      | none =>
        apply scanPixels_ne
        rw [stepPixel_append y x px st ha (Or.inl hfl)]
        simp
      | some fl =>
        by_cases hy : fl.2 = y
        · have hne : st.firstT ≠ [] := hpre (by rw [hfl]; rfl)
          apply scanPixels_ne
          obtain ⟨e1, _⟩ := stepPixel_noapp y x px st fl hfl hy
          rw [e1]
          exact hne
        · apply scanPixels_ne
          rw [stepPixel_append y x px st ha (Or.inr ⟨fl, hfl, hy⟩)]
          simp

theorem endRow_firstT (st : ScanState) :
    (endRow st).firstT = st.firstT ∧ (endRow st).firstLoc = st.firstLoc ∧
    (endRow st).lastLoc = st.lastLoc := by
  unfold endRow
  split
  · exact ⟨rfl, rfl, rfl⟩
  · exact ⟨rfl, rfl, rfl⟩

theorem endRow_none (st : ScanState) (h : st.lastLoc = none) : endRow st = st := by
  unfold endRow
  split
  · rename_i l heq
    rw [h] at heq
    exact absurd heq (by simp)
  · rfl

theorem endRow_some (st : ScanState) (l : Nat × Nat) (h : st.lastLoc = some l) :
    endRow st = { st with lastT := st.lastT ++ [l] } := by
  unfold endRow
  split
  · rename_i l' heq
    rw [h] at heq
    injection heq with h2
    rw [h2]
  · rename_i heq
    rw [h] at heq
    exact absurd heq (by simp)

theorem scanRow_inv (image : List (List Pixel)) (y : Nat) (row : List Pixel)
    (st : ScanState) (hrow : image[y]? = some row) (hinv : ScanInv image y st) :
    ScanInv image (y + 1) (scanRow y row st) := by
  obtain ⟨memF, memL, memLL, hlen, hsync, hheadRel, hyb, hhb⟩ := hinv
  have hlastT1 : (scanPixels y 0 row st).lastT = st.lastT := scanPixels_lastT y row 0 st
  have htransNew : ∀ j px, row[j]? = some px → px.a ≠ 0 → transparentAt image (j, y) :=
    fun j px hj ha => ⟨row, px, hrow, hj, ha⟩
  obtain ⟨hFT, hFL, _⟩ := endRow_firstT (scanPixels y 0 row st)
  have hFT : (scanRow y row st).firstT = (scanPixels y 0 row st).firstT := hFT
  have hFL : (scanRow y row st).firstLoc = (scanPixels y 0 row st).firstLoc := hFL
  cases hLL : (scanPixels y 0 row st).lastLoc with
  | none =>
    have heq : scanRow y row st = scanPixels y 0 row st := endRow_none _ hLL
    have hLT : (scanRow y row st).lastT = st.lastT := by rw [heq]; exact hlastT1
    have hLLoc : (scanRow y row st).lastLoc = none := by rw [heq]; exact hLL
    rcases scanPixels_struct y row 0 st with ⟨e1, e2⟩ | ⟨j, px, hj, ha, e1, e2⟩
    swap
    · rw [hLL] at e2
      exact absurd e2 (by simp)
    have hFT2 : (scanRow y row st).firstT = st.firstT := by rw [hFT, e1]
    have hFL2 : (scanRow y row st).firstLoc = st.firstLoc := by rw [hFL, e2]
    refine ⟨?_, ?_, ?_, ?_, ?_, ?_, ?_, ?_⟩
    · intro p hp
      rw [hFT2] at hp
      exact memF p hp
    · intro q hq
      rw [hLT] at hq
      exact memL q hq
    · intro q hq
      rw [hLLoc] at hq
      exact absurd hq (by simp)
    · rw [hFT2, hLT]
      exact hlen
    · intro hft
      rw [hFT2] at hft
      obtain ⟨s1, s2, s3⟩ := hsync hft
      exact ⟨by rw [hLT]; exact s1, by rw [hFL2]; exact s2, hLLoc⟩
    · intro f hf
      rw [hFT2] at hf
      obtain ⟨g, hg, hfg⟩ := hheadRel f hf
      exact ⟨g, by rw [hLT]; exact hg, hfg⟩
    · intro p hp
      rw [hFT2] at hp
      exact Nat.lt_succ_of_lt (hyb p hp)
    · intro f hf p hp
      rw [hFT2] at hf hp
      exact hhb f hf p hp
  | some l =>
    have heq : scanRow y row st =
        { scanPixels y 0 row st with lastT := (scanPixels y 0 row st).lastT ++ [l] } :=
      endRow_some _ l hLL
    have hLT : (scanRow y row st).lastT = st.lastT ++ [l] := by
      rw [heq]
      show (scanPixels y 0 row st).lastT ++ [l] = st.lastT ++ [l]
      rw [hlastT1]
    have hLLoc : (scanRow y row st).lastLoc = some l := by
      rw [heq]
      exact hLL
    have hlTrans : transparentAt image l := by
      rcases scanPixels_lastLocD y row 0 st with h | ⟨j, px, hj, ha, h⟩
      · rw [h] at hLL
        exact memLL l hLL
      · rw [h] at hLL
        injection hLL with h2
        rw [← h2]
        simpa using htransNew j px hj ha
    refine ⟨?_, ?_, ?_, ?_, ?_, ?_, ?_, ?_⟩
    · -- every first record is a transparent pixel
      intro p hp
      rw [hFT] at hp
      rcases scanPixels_struct y row 0 st with ⟨e1, _⟩ | ⟨j, px, hj, ha, e1, _⟩
      · rw [e1] at hp
        exact memF p hp
      · rw [e1] at hp
        rcases List.mem_append.1 hp with h | h
        · exact memF p h
        · have hpe : p = (0 + j, y) := List.mem_singleton.1 h
          rw [hpe]
          simpa using htransNew j px hj ha
    · -- every last record is a transparent pixel
      intro q hq
      rw [hLT] at hq
      rcases List.mem_append.1 hq with h | h
      · exact memL q h
      · rw [List.mem_singleton.1 h]
        exact hlTrans
    · -- the running last location is a transparent pixel
      intro q hq
      rw [hLLoc] at hq
      injection hq with h2
      rw [← h2]
      exact hlTrans
    · -- first list never longer than last list
      rw [hLT]
      rcases scanPixels_struct y row 0 st with ⟨e1, _⟩ | ⟨j, px, hj, ha, e1, _⟩
      · rw [hFT, e1]
        simp only [List.length_append, List.length_cons, List.length_nil]
        omega
      · rw [hFT, e1]
        simp only [List.length_append, List.length_cons, List.length_nil]
        omega
    · -- emptiness sync (vacuous here: something was recorded this row)
      intro hft
      exfalso
      rcases scanPixels_struct y row 0 st with ⟨e1, _⟩ | ⟨j, px, hj, ha, e1, _⟩
      · rw [hFT, e1] at hft
        obtain ⟨s1, s2, s3⟩ := hsync hft
        rcases scanPixels_empty y row 0 st hft s2 s3 with ⟨_, _, h3⟩ | ⟨f, l', hh, _, _⟩
        · rw [h3] at hLL
          exact Option.noConfusion hLL
        · rw [e1, hft] at hh
          exact Option.noConfusion hh
      · rw [hFT, e1] at hft
        exact absurd hft (by simp)
    · -- head relation
      intro f hf
      rw [hFT] at hf
      cases hft : st.firstT with
      | nil =>
        obtain ⟨s1, s2, s3⟩ := hsync hft
        rcases scanPixels_empty y row 0 st hft s2 s3 with ⟨_, _, h3⟩ | ⟨f0, l0, hh, hl0, hge⟩
        · rw [h3] at hLL
          exact Option.noConfusion hLL
        · rw [hf] at hh
          injection hh with h2
          rw [hl0] at hLL
          injection hLL with h3
          refine ⟨l, ?_, ?_⟩
          · rw [hLT, s1]
            rfl
          · rw [h2, ← h3]
            exact hge
      | cons a t =>
        have hha : st.firstT.head? = some a := by rw [hft]; rfl
        have hh1 := scanPixels_head y row 0 st a hha
        rw [hf] at hh1
        injection hh1 with h2
        obtain ⟨g, hg, hag⟩ := hheadRel a hha
        refine ⟨g, ?_, ?_⟩
        · rw [hLT]
          exact head?_append_some hg
        · rw [h2]
          exact hag
    · -- all recorded rows below y + 1
      intro p hp
      rw [hFT] at hp
      rcases scanPixels_struct y row 0 st with ⟨e1, _⟩ | ⟨j, px, hj, ha, e1, _⟩
      · rw [e1] at hp
        exact Nat.lt_succ_of_lt (hyb p hp)
      · rw [e1] at hp
        rcases List.mem_append.1 hp with h | h
        · exact Nat.lt_succ_of_lt (hyb p h)
        · rw [List.mem_singleton.1 h]
          exact Nat.lt_succ_self y
    · -- the head row is the least recorded row
      intro f hf p hp
      rw [hFT] at hf hp
      rcases scanPixels_struct y row 0 st with ⟨e1, _⟩ | ⟨j, px, hj, ha, e1, _⟩
      · rw [e1] at hf hp
        exact hhb f hf p hp
      · rw [e1] at hf hp
        cases hft : st.firstT with
        | nil =>
          rw [hft] at hf hp
          simp only [List.nil_append] at hf hp
          injection hf with h2
          rw [List.mem_singleton.1 hp, ← h2]
        | cons a t =>
          have hha : st.firstT.head? = some a := by rw [hft]; rfl
          rw [hft] at hf hp
          have hf2 : f = a := by
            rw [show ((a :: t) ++ [(0 + j, y)]).head? = some a from rfl] at hf
            injection hf with h2
            exact h2.symm
          rcases List.mem_append.1 hp with h | h
          · rw [hf2, ← hft] at *
            exact hhb a hha p (by rw [hft]; exact h)
          · rw [List.mem_singleton.1 h, hf2]
            have : a.2 < y := hyb a (by rw [hft]; exact List.mem_cons_self a t)
            omega

theorem scanInv_init (image : List (List Pixel)) : ScanInv image 0 initScan := by
  refine ⟨?_, ?_, ?_, ?_, ?_, ?_, ?_, ?_⟩ <;> simp [initScan]

theorem scanRows_inv (image : List (List Pixel)) :
    ∀ rows y st, (∀ i r, rows[i]? = some r → image[y + i]? = some r) →
      ScanInv image y st → ScanInv image (y + rows.length) (scanRows y rows st) := by
  intro rows
  induction rows with
  | nil =>
    intro y st halign hinv
    simpa using hinv
  | cons row rest ih =>
    intro y st halign hinv
    have hrow : image[y]? = some row := by
      have := halign 0 row List.getElem?_cons_zero
      simpa using this
    have hinv1 := scanRow_inv image y row st hrow hinv
    have halign1 : ∀ i r, rest[i]? = some r → image[y + 1 + i]? = some r := by
      intro i r h
      have := halign (i + 1) r (by simpa using h)
      rw [show y + 1 + i = y + (i + 1) from by omega]
      exact this
    have hres := ih (y + 1) (scanRow y row st) halign1 hinv1
    simp only [scanRows]
    rw [show y + (row :: rest).length = y + 1 + rest.length from by
      simp only [List.length_cons]; omega]
    exact hres

theorem scan_inv_final (image : List (List Pixel)) :
    ScanInv image image.length (scanRows 0 image initScan) := by
  have := scanRows_inv image image 0 initScan (fun i r h => by simpa using h)
    (scanInv_init image)
  simpa using this

theorem scanRow_ne (y : Nat) (row : List Pixel) (st : ScanState)
    (h : st.firstT ≠ []) : (scanRow y row st).firstT ≠ [] := by
  have hFT2 : (scanRow y row st).firstT = (scanPixels y 0 row st).firstT :=
    (endRow_firstT _).1
  rw [hFT2]
  exact scanPixels_ne y row 0 st h

theorem scanRow_flinv (y : Nat) (row : List Pixel) (st : ScanState)
    (h : st.firstLoc.isSome = true → st.firstT ≠ []) :
    (scanRow y row st).firstLoc.isSome = true → (scanRow y row st).firstT ≠ [] := by
  have hFT2 : (scanRow y row st).firstT = (scanPixels y 0 row st).firstT :=
    (endRow_firstT _).1
  have hFL2 : (scanRow y row st).firstLoc = (scanPixels y 0 row st).firstLoc :=
    (endRow_firstT _).2.1
  intro hs
  rw [hFT2]
  rw [hFL2] at hs
  rcases scanPixels_struct y row 0 st with ⟨e1, e2⟩ | ⟨j, px, hj, ha, e1, e2⟩
  · rw [e1]
    rw [e2] at hs
    exact h hs
  · rw [e1]
    simp

theorem scanRow_finds (y : Nat) (row : List Pixel) (st : ScanState)
    (hex : ∃ px ∈ row, px.a ≠ 0)
    (h : st.firstLoc.isSome = true → st.firstT ≠ []) :
    (scanRow y row st).firstT ≠ [] := by
  have hFT2 : (scanRow y row st).firstT = (scanPixels y 0 row st).firstT :=
    (endRow_firstT _).1
  rw [hFT2]
  exact scanPixels_finds y row 0 st hex h

theorem scanRows_ne : ∀ (rows : List (List Pixel)) (y : Nat) (st : ScanState),
    st.firstT ≠ [] → (scanRows y rows st).firstT ≠ [] := by
  intro rows
  induction rows with
  | nil => intro y st h; exact h
  | cons row rest ih =>
    intro y st h
    simp only [scanRows]
    exact ih (y + 1) _ (scanRow_ne y row st h)

theorem scanRows_finds : ∀ (rows : List (List Pixel)) (y : Nat) (st : ScanState),
    (∃ row ∈ rows, ∃ px ∈ row, px.a ≠ 0) →
    (st.firstLoc.isSome = true → st.firstT ≠ []) →
    (scanRows y rows st).firstT ≠ [] := by
  intro rows
  induction rows with
  | nil =>
    intro y st hex hfl
    obtain ⟨r, hr, _⟩ := hex
    exact absurd hr (List.not_mem_nil r)
  | cons row rest ih =>
    intro y st hex hfl
    simp only [scanRows]
    rcases hex with ⟨r, hr, hpx⟩
    rcases List.mem_cons.1 hr with rfl | hr2
    · exact scanRows_ne rest (y + 1) _ (scanRow_finds y r st hpx hfl)
    · exact ih (y + 1) _ ⟨r, hr2, hpx⟩ (scanRow_flinv y row st hfl)

theorem pairStep_none (z : (Nat × Nat) × (Nat × Nat)) :
    pairStep (none, none) z = (some z.1, some z.2) := by
  unfold pairStep
  simp

theorem pairStep_some (l0 r0 : Nat × Nat) (z : (Nat × Nat) × (Nat × Nat)) :
    pairStep (some l0, some r0) z =
      (some (if z.1.1 < l0.1 then z.1 else l0),
       some (if r0.1 < z.2.1 then z.2 else r0)) := rfl

theorem pairFold (zs : List ((Nat × Nat) × (Nat × Nat))) :
    ∀ l0 r0, ∃ le re, zs.foldl pairStep (some l0, some r0) = (some le, some re) ∧
      (le = l0 ∨ le ∈ zs.map Prod.fst) ∧ le.1 ≤ l0.1 ∧ (∀ p ∈ zs, le.1 ≤ p.1.1) ∧
      (re = r0 ∨ re ∈ zs.map Prod.snd) ∧ r0.1 ≤ re.1 ∧ (∀ p ∈ zs, p.2.1 ≤ re.1) := by
  induction zs with
  | nil =>
    intro l0 r0
    exact ⟨l0, r0, rfl, Or.inl rfl, Nat.le_refl _, by simp, Or.inl rfl, Nat.le_refl _,
      by simp⟩
  | cons z t ih =>
    intro l0 r0
    rw [List.foldl_cons, pairStep_some l0 r0 z]
    obtain ⟨le, re, hfold, hleprov, hle1, hlemin, hreprov, hre1, hremax⟩ :=
      ih (if z.1.1 < l0.1 then z.1 else l0) (if r0.1 < z.2.1 then z.2 else r0)
    have hl1le : (if z.1.1 < l0.1 then z.1 else l0).1 ≤ l0.1 := by split <;> omega
    have hl1z : (if z.1.1 < l0.1 then z.1 else l0).1 ≤ z.1.1 := by split <;> omega
    have hr1ge : r0.1 ≤ (if r0.1 < z.2.1 then z.2 else r0).1 := by split <;> omega
    have hr1z : z.2.1 ≤ (if r0.1 < z.2.1 then z.2 else r0).1 := by split <;> omega
    refine ⟨le, re, hfold, ?_, Nat.le_trans hle1 hl1le, ?_, ?_,
      Nat.le_trans hr1ge hre1, ?_⟩
    · rcases hleprov with rfl | hm
      · rcases ite_eq_or_eq (z.1.1 < l0.1) z.1 l0 with h | h
        · right
          rw [h]
          simp
        · left
          exact h
      · right
        simp only [List.map_cons, List.mem_cons]
        right
        exact hm
    · intro p hp
      rcases List.mem_cons.1 hp with rfl | hp2
      · exact Nat.le_trans hle1 hl1z
      · exact hlemin p hp2
    · rcases hreprov with rfl | hm
      · rcases ite_eq_or_eq (r0.1 < z.2.1) z.2 r0 with h | h
        · right
          rw [h]
          simp
        · left
          exact h
      · right
        simp only [List.map_cons, List.mem_cons]
        right
        exact hm
    · intro p hp
      rcases List.mem_cons.1 hp with rfl | hp2
      · exact Nat.le_trans hr1z hre1
      · exact hremax p hp2


theorem gtl_unfold (image : List (List Pixel)) (t g : Nat × Nat)
    (rest lt : List (Nat × Nat))
    (hft : (scanRows 0 image initScan).firstT = t :: rest)
    (hlt : (scanRows 0 image initScan).lastT = g :: lt) :
    ∃ le re,
      get_transparency_location image = some (le.1, t.2, re.1, (rest.getLastD t).2) ∧
      le ∈ ((t, g) :: rest.zip lt).map Prod.fst ∧
      (∀ p ∈ (t, g) :: rest.zip lt, le.1 ≤ p.1.1) ∧
      re ∈ ((t, g) :: rest.zip lt).map Prod.snd ∧
      (∀ p ∈ (t, g) :: rest.zip lt, p.2.1 ≤ re.1) := by
  obtain ⟨le, re, hfold, hleprov, hle1, hlemin, hreprov, hre1, hremax⟩ :=
    pairFold (rest.zip lt) t g
  refine ⟨le, re, ?_, ?_, ?_, ?_, ?_⟩
  · unfold get_transparency_location
    rw [hft, hlt, List.zip_cons_cons, List.foldl_cons, pairStep_none, hfold]
  · rcases hleprov with rfl | hm
    · simp
    · simp only [List.map_cons, List.mem_cons]
      right
      exact hm
  · intro p hp
    rcases List.mem_cons.1 hp with rfl | hp2
    · exact hle1
    · exact hlemin p hp2
  · rcases hreprov with rfl | hm
    · simp
    · simp only [List.map_cons, List.mem_cons]
      right
      exact hm
  · intro p hp
    rcases List.mem_cons.1 hp with rfl | hp2
    · exact hre1
    · exact hremax p hp2

theorem zip_fst_mem_firstT (image : List (List Pixel)) (t g : Nat × Nat)
    (rest lt : List (Nat × Nat))
    (hft : (scanRows 0 image initScan).firstT = t :: rest)
    (hlt : (scanRows 0 image initScan).lastT = g :: lt)
    (le : Nat × Nat) (h : le ∈ ((t, g) :: rest.zip lt).map Prod.fst) :
    le ∈ (scanRows 0 image initScan).firstT := by
  rw [hft]
  obtain ⟨p, hp, hpe⟩ := List.mem_map.1 h
  rcases List.mem_cons.1 hp with rfl | hp2
  · rw [← hpe]
    exact List.mem_cons_self _ _
  · right
    rw [← hpe]
    exact (List.of_mem_zip hp2).1

theorem zip_snd_mem_lastT (image : List (List Pixel)) (t g : Nat × Nat)
    (rest lt : List (Nat × Nat))
    (hft : (scanRows 0 image initScan).firstT = t :: rest)
    (hlt : (scanRows 0 image initScan).lastT = g :: lt)
    (re : Nat × Nat) (h : re ∈ ((t, g) :: rest.zip lt).map Prod.snd) :
    re ∈ (scanRows 0 image initScan).lastT := by
  rw [hlt]
  obtain ⟨p, hp, hpe⟩ := List.mem_map.1 h
  rcases List.mem_cons.1 hp with rfl | hp2
  · rw [← hpe]
    exact List.mem_cons_self _ _
  · right
    rw [← hpe]
    exact (List.of_mem_zip hp2).2

theorem transparentAt_bounds (image : List (List Pixel)) (w : Nat)
    (hrect : ∀ row ∈ image, row.length = w) (p : Nat × Nat)
    (h : transparentAt image p) : p.1 < w ∧ p.2 < image.length := by
  obtain ⟨row, px, hrow, hpx, _⟩ := h
  constructor
  · have h1 : p.1 < row.length := (List.getElem?_eq_some.1 hpx).1
    rw [hrect row (List.getElem?_mem hrow)] at h1
    exact h1
  · exact (List.getElem?_eq_some.1 hrow).1

/-- C5: on a rectangular 4-channel buffer with at least one nonzero-alpha
pixel, `get_transparency_location` returns a box `(left, upper, right,
lower)` with `left ≤ right`, `upper ≤ lower`, and all four coordinates
inside the buffer extent. -/
theorem get_transparency_location_bounds (image : List (List Pixel)) (w : Nat)
    (hrect : ∀ row ∈ image, row.length = w)
    (htrans : ∃ row ∈ image, ∃ px ∈ row, px.a ≠ 0) :
    ∃ l u r lo, get_transparency_location image = some (l, u, r, lo) ∧
      l ≤ r ∧ u ≤ lo ∧ l < w ∧ r < w ∧ u < image.length ∧ lo < image.length := by
  have hne : (scanRows 0 image initScan).firstT ≠ [] :=
    scanRows_finds image 0 initScan htrans (by simp [initScan])
  obtain ⟨memF, memL, memLL, hlen, hsync, hheadRel, hyb, hhb⟩ := scan_inv_final image
  cases hft : (scanRows 0 image initScan).firstT with
  | nil => exact absurd hft hne
  | cons t rest =>
    have hha : (scanRows 0 image initScan).firstT.head? = some t := by
      rw [hft]
      rfl
    obtain ⟨g, hg, htg⟩ := hheadRel t hha
    cases hlt : (scanRows 0 image initScan).lastT with
    | nil =>
      rw [hlt] at hg
      exact absurd hg (by simp)
    | cons g0 lt =>
      have hg0 : g0 = g := by
        rw [hlt] at hg
        simp only [List.head?_cons] at hg
        exact Option.some.inj hg
      subst hg0
      obtain ⟨le, re, hgtl, hleprov, hlemin, hreprov, hremax⟩ :=
        gtl_unfold image t g0 rest lt hft hlt
      have hleMem : le ∈ (scanRows 0 image initScan).firstT :=
        zip_fst_mem_firstT image t g0 rest lt hft hlt le hleprov
      have hreMem : re ∈ (scanRows 0 image initScan).lastT :=
        zip_snd_mem_lastT image t g0 rest lt hft hlt re hreprov
      have htMem : t ∈ (scanRows 0 image initScan).firstT := by
        rw [hft]
        exact List.mem_cons_self _ _
      have hlastMem : rest.getLastD t ∈ (scanRows 0 image initScan).firstT := by
        rw [hft]
        exact List.getLastD_mem_cons rest t
      obtain ⟨hle_w, _⟩ := transparentAt_bounds image w hrect le (memF le hleMem)
      obtain ⟨hre_w, _⟩ := transparentAt_bounds image w hrect re (memL re hreMem)
      obtain ⟨_, ht_h⟩ := transparentAt_bounds image w hrect t (memF t htMem)
      obtain ⟨_, hlo_h⟩ :=
        transparentAt_bounds image w hrect (rest.getLastD t) (memF _ hlastMem)
      refine ⟨le.1, t.2, re.1, (rest.getLastD t).2, hgtl, ?_, ?_, hle_w, hre_w, ht_h, hlo_h⟩
      · have h1 : le.1 ≤ t.1 := hlemin (t, g0) (List.mem_cons_self _ _)
        have h2 : g0.1 ≤ re.1 := hremax (t, g0) (List.mem_cons_self _ _)
        omega
      · exact hhb t hha (rest.getLastD t) hlastMem

/-- Witness for C5 on a 1-by-1 buffer whose only pixel has nonzero alpha. -/
theorem get_transparency_location_bounds_witness :
    (∀ row ∈ wImage, row.length = 1) ∧
    (∃ row ∈ wImage, ∃ px ∈ row, px.a ≠ 0) ∧
    (∃ l u r lo, get_transparency_location wImage = some (l, u, r, lo) ∧
      l ≤ r ∧ u ≤ lo ∧ l < 1 ∧ r < 1 ∧ u < wImage.length ∧ lo < wImage.length) :=
  ⟨by decide, by decide,
    get_transparency_location_bounds wImage 1 (by decide) (by decide)⟩

/-- C9: at the end of the row scan, the per-row first-transparency list is
never longer than the running last-transparency list, so the positional
`zip` pairing visits every per-row first record. -/
theorem scan_firstT_never_longer (image : List (List Pixel)) :
    (scanRows 0 image initScan).firstT.length ≤
      (scanRows 0 image initScan).lastT.length ∧
    ((scanRows 0 image initScan).firstT.zip
      (scanRows 0 image initScan).lastT).map Prod.fst =
      (scanRows 0 image initScan).firstT := by
  obtain ⟨_, _, _, hlen, _, _, _, _⟩ := scan_inv_final image
  exact ⟨hlen, List.map_fst_zip _ _ hlen⟩

/-- Counterexample to C3 as stated: on `cexImage` (transparent pixels at
(1,0), (3,0) and (5,2), with an all-opaque middle row), the returned
`right` is 3, yet the carried-forward last-transparency record (5, 2) has
x-coordinate 5 > 3 — `right` is not the maximum over all last records. -/
theorem gtl_right_not_global_max :
    get_transparency_location cexImage = some (1, 0, 3, 2) ∧
    (5, 2) ∈ (scanRows 0 cexImage initScan).lastT ∧ 3 < 5 := by decide

/-- C3 (amended): `left` is the minimum x over all per-row first records,
but `right` is the maximum x only over the last records actually visited
by the positional `zip` pairing (the first `length first_transparency`
entries); trailing carried-forward entries are ignored. -/
theorem gtl_left_right_characterization (image : List (List Pixel))
    (l u r lo : Nat)
    (h : get_transparency_location image = some (l, u, r, lo)) :
    (∃ p ∈ (scanRows 0 image initScan).firstT, p.1 = l) ∧
    (∀ p ∈ (scanRows 0 image initScan).firstT, l ≤ p.1) ∧
    (∃ q ∈ ((scanRows 0 image initScan).firstT.zip
      (scanRows 0 image initScan).lastT).map Prod.snd, q.1 = r) ∧
    (∀ q ∈ ((scanRows 0 image initScan).firstT.zip
      (scanRows 0 image initScan).lastT).map Prod.snd, q.1 ≤ r) := by
  obtain ⟨_, _, _, hlen, _, _, _, _⟩ := scan_inv_final image
  cases hft : (scanRows 0 image initScan).firstT with
  | nil =>
    unfold get_transparency_location at h
    rw [hft] at h
    exact absurd h (by simp)
  | cons t rest =>
    cases hlt : (scanRows 0 image initScan).lastT with
    | nil =>
      rw [hft, hlt] at hlen
      simp at hlen
    | cons g lt =>
      obtain ⟨le, re, hgtl, hleprov, hlemin, hreprov, hremax⟩ :=
        gtl_unfold image t g rest lt hft hlt
      rw [h] at hgtl
      obtain ⟨hl, hu, hr, hlo⟩ :
          l = le.1 ∧ u = t.2 ∧ r = re.1 ∧ lo = (rest.getLastD t).2 := by
        have h2 := Option.some.inj hgtl
        simp only [Prod.mk.injEq] at h2
        exact ⟨h2.1, h2.2.1, h2.2.2.1, h2.2.2.2⟩
      subst hl hu hr hlo
      refine ⟨?_, ?_, ?_, ?_⟩
      · have hm := zip_fst_mem_firstT image t g rest lt hft hlt le hleprov
        rw [hft] at hm
        exact ⟨le, hm, rfl⟩
      · intro p hp
        rcases List.mem_cons.1 hp with heq | hp2
        · rw [heq]
          exact hlemin (t, g) (List.mem_cons_self _ _)
        · have hrl : rest.length ≤ lt.length := by
            rw [hft, hlt] at hlen
            simpa using hlen
          have hpz : p ∈ (rest.zip lt).map Prod.fst := by
            rw [List.map_fst_zip rest lt hrl]
            exact hp2
          obtain ⟨q, hq, hqe⟩ := List.mem_map.1 hpz
          have hle := hlemin q (List.mem_cons_of_mem _ hq)
          rw [hqe] at hle
          exact hle
      · rw [List.zip_cons_cons]
        exact ⟨re, hreprov, rfl⟩
      · intro q hq
        rw [List.zip_cons_cons] at hq
        obtain ⟨p, hp, hpe⟩ := List.mem_map.1 hq
        rw [← hpe]
        exact hremax p hp

/-- Witness for the amended C3 on `cexImage`. -/
theorem gtl_left_right_characterization_witness :
    (∃ p ∈ (scanRows 0 cexImage initScan).firstT, p.1 = 1) ∧
    (∀ p ∈ (scanRows 0 cexImage initScan).firstT, 1 ≤ p.1) ∧
    (∃ q ∈ ((scanRows 0 cexImage initScan).firstT.zip
      (scanRows 0 cexImage initScan).lastT).map Prod.snd, q.1 = 3) ∧
    (∀ q ∈ ((scanRows 0 cexImage initScan).firstT.zip
      (scanRows 0 cexImage initScan).lastT).map Prod.snd, q.1 ≤ 3) :=
  gtl_left_right_characterization cexImage 1 0 3 2 (by decide)
